import Mathlib

/-!
# Verification of the functional-programming teaching repository

This file gives a shallow embedding of the two algorithmic components of the
repository — the generic `curry` utilities and the recursive flat-list-to-tree
builder (`hasParent` / `assignTo` / `makeTree`) — and proves or refutes the
specified properties about them.

JavaScript numbers in the examples are small integers, embedded as `Int`.
JavaScript recursion may diverge, so the recursive tree builder is embedded
with an explicit fuel parameter; termination of the JavaScript function on an
input corresponds to the fueled embedding returning `some` for some fuel.
-/

set_option autoImplicit false

namespace FP

/-! ## The curry utility (shared mutable accumulator)

Source:
```js
const curry = fn => {
    let args = [];
    const curried = (...a) => {
        args = [].concat(args, a);
        return args.length >= fn.length
            ? fn.apply(null, args)
            : curried;
    };
    return curried;
};
```

The closure variable `args` is a single mutable cell shared by every
invocation of `curried`, including invocations made through a previously
returned partial (the partial *is* `curried` itself).  We embed one call of
`curried` as a state transformer on that cell: `curried fnLength fn args a`
takes the current contents of `args` and the freshly supplied argument list
`a`, and returns the new contents of `args` together with `some result` when
`fn` was invoked (`args.length >= fn.length`) or `none` when the call
returned `curried` itself to await more arguments.

A JavaScript call can also throw; this `curry` body contains no `throw`, so
the wrap step is embedded in `Except` with the (never used) error type of
the specified `IndeterminateArityError` to make "raises no error" statable.
-/

/-- The error kind named by the spec for variable-arity functions. -/
inductive CurryError where
  | indeterminateArity
  deriving DecidableEq, Repr

/-- Wrap-time behaviour of the source `curry`: it only initialises the shared
`args` cell to the empty array and returns the `curried` closure.  It never
inspects `fn` and never throws, whatever arity (`fn.length`) is reported. -/
def curry (_fnLength : Nat) : Except CurryError (List Int) :=
  Except.ok []

/-- Modelled from the spec: "wrapping a variable-arity function fails with an
IndeterminateArityError at wrap time"; `none` stands for an arity that cannot
be determined (a rest-parameter function).  This definition follows the
spec's words, for comparison with the source `curry` above, which has no such
check. -/
def currySpecWrap (determinableArity : Option Nat) : Except CurryError Nat :=
  match determinableArity with
  | none => Except.error CurryError.indeterminateArity
  | some n => Except.ok n

/-- One invocation of the `curried` closure: `args = [].concat(args, a)`
mutates the shared cell, then `fn` is applied to the whole accumulated array
exactly when `args.length >= fn.length`. -/
def curried (fnLength : Nat) (fn : List Int → Int) (args a : List Int) :
    List Int × Option Int :=
  let args2 := args ++ a
  (args2, if fnLength ≤ args2.length then some (fn args2) else none)

/-- A sequence of invocations of the same `curried` closure, threading the
shared `args` cell from call to call; returns the final cell contents and
each call's outcome (`some r` = `fn` invoked returning `r`, `none` = the
call returned the closure itself). -/
def curryRun (fnLength : Nat) (fn : List Int → Int) (calls : List (List Int)) :
    List Int × List (Option Int) :=
  calls.foldl
    (fun st a =>
      let step := curried fnLength fn st.1 a
      (step.1, st.2 ++ [step.2]))
    ([], [])

/-- `(a, b, c, d) => a + b + c + d`, a fixed-arity-4 function; `curry` only
applies it once at least four arguments have accumulated, so only the first
four positions are read. -/
def addEmUpFn (l : List Int) : Int :=
  l.getD 0 0 + l.getD 1 0 + l.getD 2 0 + l.getD 3 0

/-- `(a, b, c, d) => a * b * c * d`, the arity-4 product function of the
partial-reuse example. -/
def newAddFn (l : List Int) : Int :=
  l.getD 0 0 * l.getD 1 0 * l.getD 2 0 * l.getD 3 0

/-- `(a, b) => a + b`, a fixed-arity-2 function. -/
def addTwoFn (l : List Int) : Int :=
  l.getD 0 0 + l.getD 1 0

/-- A representative variable-arity (rest-parameter) function,
`(...a) => a.reduce((x, y) => x + y, 0)`; JavaScript reports `fn.length = 0`
for it. -/
def sumAllFn (l : List Int) : Int :=
  l.foldl (fun x y => x + y) 0

/-! ## The curryBind utility (immutable bound prefixes)

Source:
```js
function curryBind (fn) {
    function curried(...args) {
        return args.length >= fn.length
            ? fn.apply(null, args)
            : curried.bind(null, ...args);
    }
    return curried;
}
```

Here a partial is `curried.bind(null, ...args)`: a fresh callable holding its
own immutable bound prefix.  Calling a partial with further arguments `a`
invokes `curried` on `prefix ++ a`; nothing is shared between two calls of
the same partial.  `Sum.inl r` is the result of invoking `fn`, `Sum.inr p2`
is a new partial with bound prefix `p2`. -/

/-- One invocation of a `curryBind` partial whose bound prefix is `args0`,
with freshly supplied arguments `a`. -/
def curryBindCall (fnLength : Nat) (fn : List Int → Int) (args0 a : List Int) :
    Int ⊕ List Int :=
  let args := args0 ++ a
  if fnLength ≤ args.length then Sum.inl (fn args) else Sum.inr args

/-! ## Claims about the curry utilities -/

/-- C1: the claim expects the partial `p = curry((a,b,c,d)=>a*b*c*d)(1,2,3)`
to be reusable — `p(0) = 0`, `p(1) = 6`, `p(2) = 12`.  On the source code the
shared `args` cell is mutated by each invocation: after `p(0)` the cell holds
`[1,2,3,0]`, so `p(1)` applies the function to `[1,2,3,0,1]`, whose first
four positions multiply to `0`, not `6` — and `p(2)` likewise returns `0`.
This theorem evaluates the embedded code on that failing call sequence. -/
theorem curry_shared_args_failure :
    curryRun 4 newAddFn [[1, 2, 3], [0], [1], [2]]
      = ([1, 2, 3, 0, 1, 2], [none, some 0, some 0, some 0])
    ∧ (some (0 : Int) ≠ some (6 : Int)) := by
  constructor
  · rfl
  · decide

/-- C2 counterexample: the claim says `curry(fn)` itself raises
`IndeterminateArityError` for a variable-arity `fn`, before the returned
callable is ever invoked.  In the source, `curry` performs no arity check and
never throws: wrapping the rest-parameter function (reported arity `0`)
succeeds, and the very first invocation of the returned callable — even with
zero arguments — already invokes `fn` (since `0 >= fn.length`), returning
`0` rather than raising anything.  The spec-modelled wrap, by contrast, does
error on an indeterminate arity, so the code does not refine the spec's
failure policy. -/
theorem curry_no_wrap_time_error_counterexample :
    curry 0 = Except.ok []
    ∧ curried 0 sumAllFn [] [] = ([], some 0)
    ∧ currySpecWrap none = Except.error CurryError.indeterminateArity := by
  exact ⟨rfl, rfl, rfl⟩

/-- C2 amended: `curry` raises no error at wrap time for any reported arity
(variable-arity functions included, whose reported arity is `0`); the
consequence of an indeterminate arity is only that the first invocation of
the returned callable immediately invokes `fn` with whatever arguments were
supplied.  For fixed-arity functions wrapping likewise raises no error. -/
theorem curry_wrap_never_errors :
    (∀ fnLength : Nat, curry fnLength = Except.ok [])
    ∧ curried 0 sumAllFn [] [] = ([], some 0) := by
  exact ⟨fun _ => rfl, rfl⟩

/-- C6: the chain `curry((a,b,c,d)=>a+b+c+d)(1)(2)(3)(4)` returns `10`; the
first three calls return the closure itself (`none` — the wrapped function is
not yet invoked) and only the fourth call, at which the accumulated count
reaches the arity 4, invokes the wrapped function. -/
theorem curry_chain_addEmUp :
    curryRun 4 addEmUpFn [[1], [2], [3], [4]]
      = ([1, 2, 3, 4], [none, none, none, some 10]) := by
  rfl

/-- C7: `curry((a,b)=>a+b)(1,2,3)` applies the wrapped function at the first
call (3 ≥ 2 accumulated arguments); the fixed-arity function reads only the
first two accumulated arguments, so the extra `3` is ignored and the result
is `1 + 2 = 3`. -/
theorem curry_excess_args :
    curryRun 2 addTwoFn [[1, 2, 3]] = ([1, 2, 3], [some 3])
    ∧ addTwoFn [1, 2, 3] = addTwoFn [1, 2]
    ∧ addTwoFn [1, 2] = 3 := by
  exact ⟨rfl, rfl, rfl⟩

/-- C10: the bind-based partial `allButOneArg = curryBind((a,b,c,d)=>a*b*c*d)(1,2,3)`
holds the immutable bound prefix `[1,2,3]`; the three separate calls
`allButOneArg(0)`, `allButOneArg(1)`, `allButOneArg(2)` each start from that
same prefix and return `0`, `6` and `12` — no invocation mutates the
partial's accumulated state. -/
theorem curryBind_partial_reuse :
    curryBindCall 4 newAddFn [] [1, 2, 3] = Sum.inr [1, 2, 3]
    ∧ curryBindCall 4 newAddFn [1, 2, 3] [0] = Sum.inl 0
    ∧ curryBindCall 4 newAddFn [1, 2, 3] [1] = Sum.inl 6
    ∧ curryBindCall 4 newAddFn [1, 2, 3] [2] = Sum.inl 12 := by
  exact ⟨rfl, rfl, rfl, rfl⟩

/-! ## The recursive tree builder

Source:
```js
const hasParent = (parent) => (animal) => animal.parent === parent;

const assignTo = (tree) => (list) => (item) =>
    tree[item.id] = makeTree(list)(item.id);

const makeTree = (animals) => (parent) => {
    let nodes = {};
    animals
        .filter(hasParent(parent))
        .forEach(assignTo(nodes)(animals));
    return nodes;
};
```

A hierarchy record `{id, parent}` has a string `id` and a `parent` that is
another id or `null` (`Option String`).  A JavaScript object with tree-valued
properties is embedded as an insertion-ordered association list
`List (String × Tree)`; property assignment `tree[item.id] = v` overwrites in
place when the key is present and appends otherwise (`objInsert`).

The JavaScript recursion has no base-case guard against cycles and can
diverge, so `makeTree` takes a fuel parameter: `none` means the recursion was
still running when the fuel ran out, and divergence of the JavaScript
function on an input corresponds to the embedding returning `none` for every
fuel.
-/

/-- A flat hierarchy record `{id, parent}`. -/
structure HRecord where
  id : String
  parent : Option String
  deriving DecidableEq, Repr

/-- The output: a JavaScript object mapping each id to the object of its
children, embedded as an insertion-ordered association list. -/
inductive Tree where
  | node : List (String × Tree) → Tree
  deriving Repr

/-- `hasParent(parent)(animal)`: strict equality of the record's parent with
the requested parent value. -/
def hasParent (parent : Option String) (animal : HRecord) : Bool :=
  animal.parent == parent

/-- JavaScript property assignment `tree[item.id] = v` on an
insertion-ordered object: overwrite in place when the key exists, append
otherwise. -/
def objInsert (k : String) (v : Tree) : List (String × Tree) → List (String × Tree)
  | [] => [(k, v)]
  | kv :: rest => if kv.1 = k then (k, v) :: rest else kv :: objInsert k v rest

/-- The `forEach(assignTo(nodes)(animals))` loop over the filtered children,
threading the mutated `nodes` object; `mk` is the recursive call
`makeTree(list)` at one less fuel.  `none` propagates fuel exhaustion of a
recursive call. -/
def buildKids (mk : String → Option Tree) :
    List HRecord → List (String × Tree) → Option (List (String × Tree))
  | [], nodes => some nodes
  | item :: rest, nodes =>
    match mk item.id with
    | none => none
    | some t => buildKids mk rest (objInsert item.id t nodes)

/-- `makeTree(animals)(parent)` with explicit fuel: allocate the `nodes`
object, filter the records whose parent matches, recursively build and
assign each child's subtree. -/
def makeTree (H : List HRecord) : Nat → Option String → Option Tree
  | 0, _ => none
  | fuel + 1, parent =>
    (buildKids (fun i => makeTree H fuel (some i)) (H.filter (hasParent parent)) []).map
      Tree.node

/-- The animals hierarchy of the source file. -/
def animals : List HRecord :=
  [⟨"animals", none⟩, ⟨"mammals", some "animals"⟩, ⟨"cats", some "mammals"⟩,
   ⟨"dogs", some "mammals"⟩, ⟨"chihuahua", some "dogs"⟩, ⟨"labrador", some "dogs"⟩,
   ⟨"persian", some "cats"⟩, ⟨"siamese", some "cats"⟩]

/-- The four-record example of the specification:
`[{id:'a',parent:null},{id:'b',parent:'a'},{id:'c',parent:'a'},{id:'d',parent:'b'}]`. -/
def smallHierarchy : List HRecord :=
  [⟨"a", none⟩, ⟨"b", some "a"⟩, ⟨"c", some "a"⟩, ⟨"d", some "b"⟩]

/-- A two-record parent cycle: each record is the other's parent. -/
def cyclicPair : List HRecord :=
  [⟨"a", some "b"⟩, ⟨"b", some "a"⟩]

/-- Acyclicity of a hierarchy, expressed by a rank function on parent values:
every record's own id ranks strictly below its parent value.  Following
parent links strictly increases the rank, so every parent chain is finite
and reaches the root sentinel — the claim's "reaches the root sentinel in
finitely many hops". -/
def AcyclicM (H : List HRecord) (m : Option String → Nat) : Prop :=
  ∀ r ∈ H, m (some r.id) < m r.parent

/-- A witnessing rank function for `smallHierarchy` (hop distance to the
leaves, topped by the root sentinel). -/
def smallMeasure : Option String → Nat
  | none => 3
  | some s => if s = "a" then 2 else if s = "b" then 1 else 0

instance (H : List HRecord) (m : Option String → Nat) : Decidable (AcyclicM H m) := by
  unfold AcyclicM
  infer_instance

/-- If every item of `cs` admits a subtree, the `forEach` loop succeeds. -/
theorem buildKids_total (mk : String → Option Tree) :
    ∀ cs : List HRecord, (∀ item ∈ cs, ∃ t, mk item.id = some t) →
      ∀ nodes, ∃ out, buildKids mk cs nodes = some out := by
  intro cs
  induction cs with
  | nil => exact fun _ nodes => ⟨nodes, rfl⟩
  | cons item rest ih =>
    intro h nodes
    obtain ⟨t, ht⟩ := h item (by simp)
    obtain ⟨out, hout⟩ := ih (fun x hx => h x (by simp [hx])) (objInsert item.id t nodes)
    exact ⟨out, by simp only [buildKids, ht, hout]⟩

/-- On an acyclic hierarchy, `makeTree` succeeds as soon as the fuel exceeds
the rank of the requested parent value. -/
theorem makeTree_total (H : List HRecord) (m : Option String → Nat) (hm : AcyclicM H m) :
    ∀ fuel p, m p < fuel → ∃ t, makeTree H fuel p = some t := by
  intro fuel
  induction fuel with
  | zero => intro p hp; exact absurd hp (Nat.not_lt_zero _)
  | succ f ih =>
    intro p hp
    have hkids : ∀ item ∈ H.filter (hasParent p),
        ∃ t, makeTree H f (some item.id) = some t := by
      intro item hitem
      rw [List.mem_filter] at hitem
      have hpar : item.parent = p := by
        have := hitem.2
        simpa [hasParent] using this
      have hrank : m (some item.id) < m p := hpar ▸ hm item hitem.1
      exact ih (some item.id) (Nat.lt_of_lt_of_le hrank (Nat.lt_succ_iff.mp hp))
    obtain ⟨out, hout⟩ :=
      buildKids_total (fun i => makeTree H f (some i)) (H.filter (hasParent p)) hkids []
    exact ⟨Tree.node out, by simp only [makeTree, hout, Option.map_some']⟩

/-- Starting the build inside the two-record parent cycle never finishes,
whatever the fuel: the recursion alternates between the two ids forever. -/
theorem cyclicPair_diverges :
    ∀ fuel, makeTree cyclicPair fuel (some "a") = none
      ∧ makeTree cyclicPair fuel (some "b") = none := by
  intro fuel
  induction fuel with
  | zero => exact ⟨rfl, rfl⟩
  | succ f ih =>
    have ha : cyclicPair.filter (hasParent (some "a")) = [⟨"b", some "a"⟩] := rfl
    have hb : cyclicPair.filter (hasParent (some "b")) = [⟨"a", some "b"⟩] := rfl
    constructor
    · simp only [makeTree, ha, buildKids, ih.2, Option.map_none']
    · simp only [makeTree, hb, buildKids, ih.1, Option.map_none']

/-- C3: on every hierarchy that is acyclic (witnessed by a rank function on
parent values), `makeTree` terminates — some fuel suffices — for any
requested root; and on the concrete cyclic pair, building at a parent inside
the cycle runs out of any amount of fuel, i.e. the unguarded recursion
diverges, so acyclicity is a precondition rather than a detected error. -/
theorem makeTree_acyclic_terminates_cyclic_diverges :
    (∀ (H : List HRecord) (root : Option String) (m : Option String → Nat),
        AcyclicM H m → ∃ fuel t, makeTree H fuel root = some t)
    ∧ (∀ fuel, makeTree cyclicPair fuel (some "a") = none) := by
  constructor
  · intro H root m hm
    obtain ⟨t, ht⟩ := makeTree_total H m hm (m root + 1) root (Nat.lt_succ_self _)
    exact ⟨m root + 1, t, ht⟩
  · intro fuel
    exact (cyclicPair_diverges fuel).1

/-- C3 witness: `smallHierarchy` is acyclic via `smallMeasure`, so the
theorem yields termination there; and at fuel 3 the cyclic pair is still
unfinished. -/
theorem makeTree_acyclic_terminates_cyclic_diverges_witness :
    AcyclicM smallHierarchy smallMeasure
    ∧ (∃ fuel t, makeTree smallHierarchy fuel none = some t)
    ∧ makeTree cyclicPair 3 (some "a") = none := by
  refine ⟨by decide, ?_, ?_⟩
  · exact makeTree_acyclic_terminates_cyclic_diverges.1 smallHierarchy none smallMeasure
      (by decide)
  · exact makeTree_acyclic_terminates_cyclic_diverges.2 3

/-- C5: on the specification's four-record input with root sentinel `null`,
the builder returns exactly `{a: {b: {d: {}}, c: {}}}`; the leaf records `d`
and `c` map to empty objects. -/
theorem makeTree_concrete_small :
    makeTree smallHierarchy 5 none
      = some (Tree.node
          [("a", Tree.node [("b", Tree.node [("d", Tree.node [])]), ("c", Tree.node [])])]) :=
  rfl

/-- The `forEach` loop is insensitive to replacing the recursive call by one
that succeeds on at least the same arguments with the same values. -/
theorem buildKids_mono (mk mk2 : String → Option Tree)
    (h : ∀ i t, mk i = some t → mk2 i = some t) :
    ∀ cs nodes out, buildKids mk cs nodes = some out → buildKids mk2 cs nodes = some out := by
  intro cs
  induction cs with
  | nil => intro nodes out h0; exact h0
  | cons item rest ih =>
    intro nodes out hb
    simp only [buildKids] at hb ⊢
    cases hmk : mk item.id with
    | none => rw [hmk] at hb; exact absurd hb (by simp)
    | some t =>
      rw [hmk] at hb
      rw [h item.id t hmk]
      exact ih _ _ hb

/-- Raising the fuel never changes a successful result of `makeTree`. -/
theorem makeTree_mono (H : List HRecord) :
    ∀ f1 p t, makeTree H f1 p = some t → ∀ f2, f1 ≤ f2 → makeTree H f2 p = some t := by
  intro f1
  induction f1 with
  | zero => intro p t h; exact absurd h (by simp [makeTree])
  | succ f ih =>
    intro p t h f2 hle
    obtain ⟨g, rfl⟩ : ∃ g, f2 = g + 1 := ⟨f2 - 1, by omega⟩
    have hfg : f ≤ g := by omega
    simp only [makeTree] at h ⊢
    cases hb : buildKids (fun i => makeTree H f (some i)) (H.filter (hasParent p)) [] with
    | none => rw [hb] at h; simp at h
    | some out =>
      rw [hb] at h
      rw [buildKids_mono (fun i => makeTree H f (some i)) (fun i => makeTree H g (some i))
        (fun i u hu => ih (some i) u hu g hfg) _ [] out hb]
      exact h

/-- C9: the tree builder is deterministic and repeatable — any two
evaluations of `makeTree` on the same records and the same root that both
finish (whatever fuel each was given) return the same tree; equality of
`Tree` values is exactly structural (deep) equality of the nested
mappings. -/
theorem makeTree_deterministic (H : List HRecord) (root : Option String) :
    ∀ f1 f2 t1 t2, makeTree H f1 root = some t1 → makeTree H f2 root = some t2 → t1 = t2 := by
  intro f1 f2 t1 t2 h1 h2
  rcases Nat.le_total f1 f2 with h | h
  · exact Option.some_inj.mp ((makeTree_mono H f1 root t1 h1 f2 h).symm.trans h2)
  · exact (Option.some_inj.mp ((makeTree_mono H f2 root t2 h2 f1 h).symm.trans h1)).symm

/-- The tree `{a: {b: {d: {}}, c: {}}}` produced from `smallHierarchy`. -/
def smallTree : Tree :=
  Tree.node [("a", Tree.node [("b", Tree.node [("d", Tree.node [])]), ("c", Tree.node [])])]

/-- C9 witness: two runs of the builder on the four-record example (with
different fuel, i.e. independent evaluations) both return `smallTree`. -/
theorem makeTree_deterministic_witness :
    makeTree smallHierarchy 5 none = some smallTree
    ∧ makeTree smallHierarchy 9 none = some smallTree
    ∧ smallTree = smallTree := by
  exact ⟨rfl, rfl, makeTree_deterministic smallHierarchy none 5 9 smallTree smallTree rfl rfl⟩

/-! ### Counting the nodes of the built tree (C4)

`countTree` sums the entries across all levels of a built tree.  To relate
that sum to the input records we use two auxiliary fueled functions that
mirror the recursion structure of `makeTree`: `descF` lists, with
multiplicity, every record placed in the subtree built at a given parent
value, and `reachesB` decides whether the parent chain of a record reaches a
given parent value within the fuel.  On an acyclic hierarchy with unique ids
and valid parent references, every record is placed exactly once, so the
placed list is a permutation of the input and the node count equals the
record count. -/

mutual

/-- Total number of nodes across all levels of a built tree. -/
def countTree : Tree → Nat
  | .node kids => countKids kids

/-- Number of nodes contributed by a children list: each entry itself plus
its whole subtree. -/
def countKids : List (String × Tree) → Nat
  | [] => 0
  | kv :: rest => 1 + countTree kv.2 + countKids rest

end

theorem countKids_append :
    ∀ l1 l2 : List (String × Tree), countKids (l1 ++ l2) = countKids l1 + countKids l2 := by
  intro l1 l2
  induction l1 with
  | nil => simp [countKids]
  | cons kv rest ih => simp [countKids, ih]; omega

/-- The records placed by the `forEach` loop over a filtered children list:
each child itself followed by everything placed in its subtree (`dF` is the
recursive placement at one less fuel). -/
def descKids (dF : String → List HRecord) : List HRecord → List HRecord
  | [] => []
  | c :: rest => c :: (dF c.id ++ descKids dF rest)

/-- All records placed, with multiplicity, in the subtree that
`makeTree H fuel p` builds; mirrors `makeTree`'s recursion exactly. -/
def descF (H : List HRecord) : Nat → Option String → List HRecord
  | 0, _ => []
  | f + 1, p => descKids (fun i => descF H f (some i)) (H.filter (hasParent p))

/-- Whether the parent chain of `r` (following each record's `parent` to the
record carrying that id, found by `find?` as `makeTree`'s placement would)
arrives at the parent value `p` within `fuel` upward hops. -/
def reachesB (H : List HRecord) : Nat → HRecord → Option String → Bool
  | 0, _, _ => false
  | f + 1, r, p =>
    (r.parent == p) ||
      match r.parent with
      | none => false
      | some i =>
        match H.find? (fun x => x.id == i) with
        | none => false
        | some r1 => reachesB H f r1 p

/-- Every record's id is distinct. -/
def UniqueIds (H : List HRecord) : Prop :=
  (H.map HRecord.id).Nodup

/-- Every non-root parent value references the id of some record of the
collection. -/
def ValidParents (H : List HRecord) : Prop :=
  ∀ r ∈ H, r.parent = none ∨ ∃ r2 ∈ H, r.parent = some r2.id

instance (H : List HRecord) : Decidable (UniqueIds H) := by
  unfold UniqueIds
  infer_instance

instance (H : List HRecord) : Decidable (ValidParents H) := by
  unfold ValidParents
  infer_instance

theorem reachesB_succ_parent_none {H : List HRecord} {f : Nat} {r : HRecord}
    {p : Option String} (hr : r.parent = none) :
    reachesB H (f + 1) r p = ((none : Option String) == p) := by
  simp only [reachesB, hr, Bool.or_false]

theorem reachesB_succ_find_none {H : List HRecord} {f : Nat} {r : HRecord}
    {p : Option String} {i : String} (hr : r.parent = some i)
    (hf : H.find? (fun x => x.id == i) = none) :
    reachesB H (f + 1) r p = (some i == p) := by
  simp only [reachesB, hr, hf, Bool.or_false]

theorem reachesB_succ_find_some {H : List HRecord} {f : Nat} {r r1 : HRecord}
    {p : Option String} {i : String} (hr : r.parent = some i)
    (hf : H.find? (fun x => x.id == i) = some r1) :
    reachesB H (f + 1) r p = ((some i == p) || reachesB H f r1 p) := by
  simp only [reachesB, hr, hf]

theorem reachesB_succ_parent_eq {H : List HRecord} {f : Nat} {r : HRecord}
    {p : Option String} (hr : r.parent = p) :
    reachesB H (f + 1) r p = true := by
  have hb : (r.parent == p) = true := by simp [hr]
  simp only [reachesB, hb, Bool.true_or]

/-- `countP` only depends on the predicate's values on the list members. -/
theorem countP_congr_members {α : Type} (l : List α) (p q : α → Bool)
    (h : ∀ a ∈ l, p a = q a) : l.countP p = l.countP q := by
  induction l with
  | nil => rfl
  | cons a t ih =>
    rw [List.countP_cons, List.countP_cons, h a (by simp),
      ih (fun x hx => h x (by simp [hx]))]

/-- With unique ids, equal ids of members force equal records. -/
theorem uniqueIds_inj {H : List HRecord} (hu : UniqueIds H) {a b : HRecord}
    (ha : a ∈ H) (hb : b ∈ H) (hid : a.id = b.id) : a = b :=
  List.inj_on_of_nodup_map hu ha hb hid

/-- More fuel never loses an established chain. -/
theorem reachesB_mono (H : List HRecord) :
    ∀ f1 f2 r p, f1 ≤ f2 → reachesB H f1 r p = true → reachesB H f2 r p = true := by
  intro f1
  induction f1 with
  | zero => intro f2 r p _ h; exact absurd h (by simp [reachesB])
  | succ f ih =>
    intro f2 r p hle h
    obtain ⟨g, rfl⟩ : ∃ g, f2 = g + 1 := ⟨f2 - 1, by omega⟩
    cases hr : r.parent with
    | none =>
      rw [reachesB_succ_parent_none hr] at h ⊢
      exact h
    | some i =>
      cases hf : H.find? (fun x => x.id == i) with
      | none =>
        rw [reachesB_succ_find_none hr hf] at h ⊢
        exact h
      | some r1 =>
        rw [reachesB_succ_find_some hr hf] at h ⊢
        rcases Bool.or_eq_true_iff.mp h with h1 | h1
        · exact Bool.or_eq_true_iff.mpr (Or.inl h1)
        · exact Bool.or_eq_true_iff.mpr (Or.inr (ih g r1 p (by omega) h1))

/-- On an acyclic hierarchy the rank strictly increases along any
established chain: the start of the chain ranks below the target. -/
theorem reachesB_rank (H : List HRecord) (m : Option String → Nat) (hm : AcyclicM H m) :
    ∀ f r p, r ∈ H → reachesB H f r p = true → m (some r.id) < m p := by
  intro f
  induction f with
  | zero => intro r p _ h; exact absurd h (by simp [reachesB])
  | succ f ih =>
    intro r p hrH h
    cases hr : r.parent with
    | none =>
      rw [reachesB_succ_parent_none hr] at h
      have hp : (none : Option String) = p := by simpa using h
      have := hm r hrH
      rw [hr, hp] at this
      exact this
    | some i =>
      cases hf : H.find? (fun x => x.id == i) with
      | none =>
        rw [reachesB_succ_find_none hr hf] at h
        have hp : some i = p := by simpa using h
        have := hm r hrH
        rw [hr, hp] at this
        exact this
      | some r1 =>
        rw [reachesB_succ_find_some hr hf] at h
        rcases Bool.or_eq_true_iff.mp h with h1 | h1
        · have hp : some i = p := by simpa using h1
          have := hm r hrH
          rw [hr, hp] at this
          exact this
        · have hr1H : r1 ∈ H := List.mem_of_find?_eq_some hf
          have hid : r1.id = i := by simpa using List.find?_some hf
          have h1m : m (some r1.id) < m p := ih r1 p hr1H h1
          have h2m : m (some r.id) < m (some r1.id) := by
            have := hm r hrH
            rw [hr] at this
            rw [hid]
            exact this
          omega

/-- On an acyclic hierarchy, the upward chain of a record whose parent is
`p` can never pass through a child of `p` (that would close a cycle). -/
theorem reachesB_child_false (H : List HRecord) (m : Option String → Nat)
    (hm : AcyclicM H m) (f : Nat) (r c : HRecord) (p : Option String)
    (hrp : r.parent = p) (hcH : c ∈ H) (hcp : c.parent = p) :
    reachesB H f r (some c.id) = false := by
  cases f with
  | zero => simp [reachesB]
  | succ f =>
    rw [Bool.eq_false_iff]
    intro h
    cases hp : p with
    | none =>
      rw [reachesB_succ_parent_none (by rw [hrp, hp])] at h
      simp at h
    | some j =>
      have hrj : r.parent = some j := by rw [hrp, hp]
      cases hf : H.find? (fun x => x.id == j) with
      | none =>
        rw [reachesB_succ_find_none hrj hf] at h
        have hj : j = c.id := by simpa using h
        rw [List.find?_eq_none] at hf
        exact hf c hcH (by simp [hj])
      | some r1 =>
        rw [reachesB_succ_find_some hrj hf] at h
        have hr1H : r1 ∈ H := List.mem_of_find?_eq_some hf
        have hid : r1.id = j := by simpa using List.find?_some hf
        rcases Bool.or_eq_true_iff.mp h with h1 | h1
        · have hj : j = c.id := by simpa using h1
          have hc2 := hm c hcH
          rw [hcp, hp, ← hj] at hc2
          omega
        · have h1m := reachesB_rank H m hm f r1 (some c.id) hr1H h1
          rw [hid] at h1m
          have hc2 := hm c hcH
          rw [hcp, hp] at hc2
          omega

/-- Among the children of `p`, exactly one lies on the upward chain of `r`
when that chain, extended one hop, reaches `p` — and none otherwise.  This is
the key step equating the placement count with the chain indicator. -/
theorem countP_chain (H : List HRecord) (m : Option String → Nat)
    (hm : AcyclicM H m) (hu : UniqueIds H) :
    ∀ f r p, r ∈ H → r.parent ≠ p →
      ((H.filter (hasParent p)).countP fun c => reachesB H f r (some c.id))
        = (if reachesB H (f + 1) r p then 1 else 0) := by
  intro f
  induction f with
  | zero =>
    intro r p hrH hrp
    have h0 : ((H.filter (hasParent p)).countP fun c => reachesB H 0 r (some c.id)) = 0 := by
      simp [reachesB]
    rw [h0]
    cases hr : r.parent with
    | none =>
      rw [reachesB_succ_parent_none hr, if_neg]
      simp only [beq_iff_eq]
      intro hh
      exact hrp (by rw [hr, hh])
    | some i =>
      cases hf : H.find? (fun x => x.id == i) with
      | none =>
        rw [reachesB_succ_find_none hr hf, if_neg]
        simp only [beq_iff_eq]
        intro hh
        exact hrp (by rw [hr, hh])
      | some r1 =>
        rw [reachesB_succ_find_some hr hf]
        have : reachesB H 0 r1 p = false := by simp [reachesB]
        rw [this, Bool.or_false, if_neg]
        simp only [beq_iff_eq]
        intro hh
        exact hrp (by rw [hr, hh])
  | succ g ih =>
    intro r p hrH hrp
    cases hr : r.parent with
    | none =>
      have hL : ((H.filter (hasParent p)).countP
          fun c => reachesB H (g + 1) r (some c.id)) = 0 := by
        rw [List.countP_eq_zero]
        intro c _
        rw [reachesB_succ_parent_none hr]
        simp
      rw [hL, reachesB_succ_parent_none hr, if_neg]
      simp only [beq_iff_eq]
      intro hh
      exact hrp (by rw [hr, hh])
    | some i =>
      cases hf : H.find? (fun x => x.id == i) with
      | none =>
        have hL : ((H.filter (hasParent p)).countP
            fun c => reachesB H (g + 1) r (some c.id)) = 0 := by
          rw [List.countP_eq_zero]
          intro c hc
          rw [reachesB_succ_find_none hr hf]
          simp only [beq_iff_eq, Option.some.injEq]
          intro hj
          have hcH : c ∈ H := (List.mem_filter.mp hc).1
          rw [List.find?_eq_none] at hf
          exact hf c hcH (by simp [hj])
        rw [hL, reachesB_succ_find_none hr hf, if_neg]
        simp only [beq_iff_eq]
        intro hh
        exact hrp (by rw [hr, hh])
      | some r1 =>
        have hr1H : r1 ∈ H := List.mem_of_find?_eq_some hf
        have hid : r1.id = i := by simpa using List.find?_some hf
        have hip : (some i == p) = false := by
          rw [Bool.eq_false_iff]
          simp only [ne_eq, beq_iff_eq]
          intro hh
          exact hrp (by rw [hr, hh])
        have hRHS : reachesB H (g + 1 + 1) r p = reachesB H (g + 1) r1 p := by
          rw [reachesB_succ_find_some hr hf, hip, Bool.false_or]
        by_cases hp1 : r1.parent = p
        · have hRtrue : reachesB H (g + 1) r1 p = true := reachesB_succ_parent_eq hp1
          rw [hRHS, hRtrue, if_pos rfl]
          have hcongr : ∀ c ∈ H.filter (hasParent p),
              (reachesB H (g + 1) r (some c.id)) = (c == r1) := by
            intro c hc
            have hcH : c ∈ H := (List.mem_filter.mp hc).1
            have hcp : c.parent = p := by
              simpa [hasParent] using (List.mem_filter.mp hc).2
            rw [reachesB_succ_find_some hr hf]
            by_cases hceq : c = r1
            · subst hceq
              simp [hid]
            · have h1 : (some i == some c.id) = false := by
                rw [Bool.eq_false_iff]
                simp only [ne_eq, beq_iff_eq, Option.some.injEq]
                intro hh
                exact hceq (uniqueIds_inj hu hcH hr1H (by rw [hid]; exact hh.symm))
              have h2 : reachesB H g r1 (some c.id) = false :=
                reachesB_child_false H m hm g r1 c p hp1 hcH hcp
              rw [h1, h2, Bool.or_self]
              exact (beq_eq_false_iff_ne.mpr hceq).symm
          rw [countP_congr_members _ _ _ hcongr, ← List.count_eq_countP]
          have hnodup : (H.filter (hasParent p)).Nodup :=
            List.Nodup.sublist (List.filter_sublist H) (List.Nodup.of_map _ hu)
          have hmem : r1 ∈ H.filter (hasParent p) :=
            List.mem_filter.mpr ⟨hr1H, by simp [hasParent, hp1]⟩
          exact List.count_eq_one_of_mem hnodup hmem
        · have hcongr : ∀ c ∈ H.filter (hasParent p),
              (reachesB H (g + 1) r (some c.id)) = reachesB H g r1 (some c.id) := by
            intro c hc
            have hcH : c ∈ H := (List.mem_filter.mp hc).1
            have hcp : c.parent = p := by
              simpa [hasParent] using (List.mem_filter.mp hc).2
            rw [reachesB_succ_find_some hr hf]
            have h1 : (some i == some c.id) = false := by
              rw [Bool.eq_false_iff]
              simp only [ne_eq, beq_iff_eq, Option.some.injEq]
              intro hh
              have hcr1 : c = r1 := uniqueIds_inj hu hcH hr1H (by rw [hid]; exact hh.symm)
              exact hp1 (hcr1 ▸ hcp)
            rw [h1, Bool.false_or]
          rw [countP_congr_members _ _ _ hcongr, hRHS]
          exact ih r1 p hr1H hp1

/-- Multiplicity of one record in the loop's placement list, as the direct
occurrences plus the indicator-valued subtree contributions. -/
theorem descKids_count (dF : String → List HRecord) (r : HRecord) (Q : HRecord → Bool) :
    ∀ cs : List HRecord, (∀ c ∈ cs, (dF c.id).count r = if Q c then 1 else 0) →
      (descKids dF cs).count r = cs.count r + cs.countP Q := by
  intro cs
  induction cs with
  | nil => intro _; simp [descKids]
  | cons c rest ih =>
    intro h
    rw [show descKids dF (c :: rest) = c :: (dF c.id ++ descKids dF rest) from rfl]
    rw [List.count_cons, List.count_append, h c (by simp),
      ih (fun x hx => h x (by simp [hx])), List.count_cons, List.countP_cons]
    cases hq : Q c <;> cases hcr : c == r <;> simp [hq, hcr] <;> omega

/-- On an acyclic hierarchy with unique ids, a member record occurs in the
placement list at `p` exactly when its chain reaches `p`, and then exactly
once. -/
theorem descF_count (H : List HRecord) (m : Option String → Nat)
    (hm : AcyclicM H m) (hu : UniqueIds H) :
    ∀ f r p, r ∈ H → (descF H f p).count r = if reachesB H f r p then 1 else 0 := by
  intro f
  induction f with
  | zero => intro r p _; simp [descF, reachesB]
  | succ f ih =>
    intro r p hrH
    rw [show descF H (f + 1) p
        = descKids (fun i => descF H f (some i)) (H.filter (hasParent p)) from rfl]
    rw [descKids_count _ r (fun c => reachesB H f r (some c.id)) _
      (fun c _ => ih r (some c.id) hrH)]
    by_cases hp : r.parent = p
    · have h1 : (H.filter (hasParent p)).count r = 1 := by
        have hnodup : (H.filter (hasParent p)).Nodup :=
          List.Nodup.sublist (List.filter_sublist H) (List.Nodup.of_map _ hu)
        exact List.count_eq_one_of_mem hnodup
          (List.mem_filter.mpr ⟨hrH, by simp [hasParent, hp]⟩)
      have h2 : ((H.filter (hasParent p)).countP fun c => reachesB H f r (some c.id)) = 0 := by
        rw [List.countP_eq_zero]
        intro c hc
        have hcH : c ∈ H := (List.mem_filter.mp hc).1
        have hcp : c.parent = p := by simpa [hasParent] using (List.mem_filter.mp hc).2
        simp [reachesB_child_false H m hm f r c p hp hcH hcp]
      rw [h1, h2, reachesB_succ_parent_eq hp, if_pos rfl]
    · have h1 : (H.filter (hasParent p)).count r = 0 := by
        rw [List.count_eq_zero]
        intro hmem
        exact hp (by simpa [hasParent] using (List.mem_filter.mp hmem).2)
      rw [h1, countP_chain H m hm hu f r p hrH hp]
      omega

/-- Everything the loop places comes from the record collection. -/
theorem descKids_sub (dF : String → List HRecord) (H : List HRecord)
    (hdF : ∀ i x, x ∈ dF i → x ∈ H) :
    ∀ cs : List HRecord, (∀ c ∈ cs, c ∈ H) → ∀ x, x ∈ descKids dF cs → x ∈ H := by
  intro cs
  induction cs with
  | nil => intro _ x hx; simp [descKids] at hx
  | cons c rest ih =>
    intro hcs x hx
    rw [show descKids dF (c :: rest) = c :: (dF c.id ++ descKids dF rest) from rfl] at hx
    simp only [List.mem_cons, List.mem_append] at hx
    rcases hx with rfl | hx | hx
    · exact hcs x (by simp)
    · exact hdF c.id x hx
    · exact ih (fun y hy => hcs y (by simp [hy])) x hx

/-- Everything placed in any subtree comes from the record collection. -/
theorem descF_sub (H : List HRecord) :
    ∀ f p x, x ∈ descF H f p → x ∈ H := by
  intro f
  induction f with
  | zero => intro p x hx; simp [descF] at hx
  | succ f ih =>
    intro p x hx
    exact descKids_sub _ H (fun i y hy => ih (some i) y hy) (H.filter (hasParent p))
      (fun c hc => (List.mem_filter.mp hc).1) x hx

/-- Filtering with a weaker predicate keeps at least as many elements. -/
theorem length_filter_imp {α : Type} (l : List α) (P Q : α → Bool)
    (h : ∀ x ∈ l, P x = true → Q x = true) :
    (l.filter P).length ≤ (l.filter Q).length := by
  induction l with
  | nil => simp
  | cons a t ih =>
    have iht := ih (fun x hx hp => h x (by simp [hx]) hp)
    by_cases hP : P a = true
    · rw [List.filter_cons_of_pos hP, List.filter_cons_of_pos (h a (by simp) hP)]
      simpa using iht
    · rw [List.filter_cons_of_neg (by simpa using hP)]
      cases hQ : Q a
      · rw [List.filter_cons_of_neg (by simp [hQ])]
        exact iht
      · rw [List.filter_cons_of_pos (by simp [hQ])]
        exact Nat.le_succ_of_le iht

/-- Filtering with a strictly weaker predicate (a member witnesses the gap)
keeps strictly more elements. -/
theorem length_filter_strict {α : Type} (l : List α) (P Q : α → Bool)
    (h : ∀ x ∈ l, P x = true → Q x = true) (a : α) (ha : a ∈ l)
    (hQ : Q a = true) (hP : P a = false) :
    (l.filter P).length < (l.filter Q).length := by
  induction l with
  | nil => simp at ha
  | cons b t ih =>
    rcases List.mem_cons.mp ha with rfl | hat
    · rw [List.filter_cons_of_neg (by simp [hP]), List.filter_cons_of_pos hQ]
      exact Nat.lt_succ_of_le (length_filter_imp t P Q (fun x hx => h x (by simp [hx])))
    · have iht := ih (fun x hx => h x (by simp [hx])) hat
      by_cases hPb : P b = true
      · rw [List.filter_cons_of_pos hPb, List.filter_cons_of_pos (h b (by simp) hPb)]
        simpa using iht
      · rw [List.filter_cons_of_neg (by simpa using hPb)]
        cases hQb : Q b
        · rw [List.filter_cons_of_neg (by simp [hQb])]
          exact iht
        · rw [List.filter_cons_of_pos (by simp [hQb])]
          exact Nat.lt_succ_of_le (Nat.le_of_lt iht)

/-- With valid parent references and an acyclicity rank, every record's
parent chain reaches the root sentinel; the fuel needed is bounded by the
number of records ranking strictly above the record. -/
theorem chain_reaches_aux (H : List HRecord) (m : Option String → Nat)
    (hm : AcyclicM H m) (hv : ValidParents H) :
    ∀ n r, r ∈ H →
      (H.filter fun x => decide (m (some r.id) < m (some x.id))).length ≤ n →
      reachesB H (n + 1) r none = true := by
  intro n
  induction n with
  | zero =>
    intro r hrH hlen
    cases hr : r.parent with
    | none => rw [reachesB_succ_parent_none hr]; rfl
    | some i =>
      exfalso
      rcases hv r hrH with hnone | ⟨r2, hr2H, hr2⟩
      · rw [hr] at hnone; cases hnone
      · have hlt : m (some r.id) < m (some r2.id) := by
          have := hm r hrH
          rw [hr2] at this
          exact this
        have hmem : r2 ∈ H.filter fun x => decide (m (some r.id) < m (some x.id)) :=
          List.mem_filter.mpr ⟨hr2H, by simpa using hlt⟩
        have := List.length_pos_of_mem hmem
        omega
  | succ n ih =>
    intro r hrH hlen
    cases hr : r.parent with
    | none => rw [reachesB_succ_parent_none hr]; rfl
    | some i =>
      rcases hv r hrH with hnone | ⟨r2, hr2H, hr2⟩
      · rw [hr] at hnone; cases hnone
      · have hi : i = r2.id := by
          rw [hr] at hr2
          exact Option.some_inj.mp hr2
        have hfindSome : (H.find? fun x => x.id == i).isSome := by
          rw [List.find?_isSome]
          exact ⟨r2, hr2H, by simp [hi]⟩
        obtain ⟨r1, hf⟩ := Option.isSome_iff_exists.mp hfindSome
        have hr1H : r1 ∈ H := List.mem_of_find?_eq_some hf
        have hid : r1.id = i := by simpa using List.find?_some hf
        have hstep : m (some r.id) < m (some r1.id) := by
          have := hm r hrH
          rw [hr] at this
          rw [hid]
          exact this
        have hstrict :
            (H.filter fun x => decide (m (some r1.id) < m (some x.id))).length
              < (H.filter fun x => decide (m (some r.id) < m (some x.id))).length := by
          apply length_filter_strict H _ _
            (fun x _ hx => by
              simp only [decide_eq_true_eq] at hx ⊢
              omega)
            r1 hr1H (by simpa using hstep) (by simp)
        have hrec := ih r1 hr1H (by omega)
        rw [reachesB_succ_find_some hr hf, hrec, Bool.or_true]

/-- Every record's chain reaches the root sentinel within `|H| + 1` hops. -/
theorem chain_reaches_root (H : List HRecord) (m : Option String → Nat)
    (hm : AcyclicM H m) (hv : ValidParents H) :
    ∀ r ∈ H, reachesB H (H.length + 1) r none = true :=
  fun r hr =>
    chain_reaches_aux H m hm hv H.length r hr (List.length_filter_le _ H)

/-- The property keys of a JavaScript object embedding. -/
def objKeys (l : List (String × Tree)) : List String :=
  l.map Prod.fst

/-- Assigning a property whose key is not yet present appends the entry. -/
theorem objInsert_fresh (k : String) (v : Tree) :
    ∀ nodes : List (String × Tree), k ∉ objKeys nodes →
      objInsert k v nodes = nodes ++ [(k, v)] := by
  intro nodes
  induction nodes with
  | nil => intro _; rfl
  | cons kv rest ih =>
    intro hk
    simp only [objKeys, List.map_cons, List.mem_cons] at hk
    push_neg at hk
    rw [show objInsert k v (kv :: rest)
        = if kv.1 = k then (k, v) :: rest else kv :: objInsert k v rest from rfl]
    rw [if_neg (fun h => hk.1 h.symm), ih (by simpa [objKeys] using hk.2)]
    rfl

/-- The `forEach` loop over children with pairwise-distinct fresh ids builds
an object whose node count is the accumulated object's count plus the length
of the placement list of those children, provided every successful recursive
call's tree count matches its own placement list.  -/
theorem buildKids_count (mk : String → Option Tree) (dF : String → List HRecord)
    (hc : ∀ i t, mk i = some t → countTree t = (dF i).length) :
    ∀ (cs : List HRecord) (nodes : List (String × Tree)) (out : List (String × Tree)),
      (∀ c ∈ cs, c.id ∉ objKeys nodes) → (cs.map HRecord.id).Nodup →
      buildKids mk cs nodes = some out →
      countKids out = countKids nodes + (descKids dF cs).length := by
  intro cs
  induction cs with
  | nil =>
    intro nodes out _ _ hb
    have hout : nodes = out := by simpa [buildKids] using hb
    subst hout
    simp [descKids]
  | cons c rest ih =>
    intro nodes out hfresh hnodup hb
    rw [show buildKids mk (c :: rest) nodes
        = (match mk c.id with
           | none => none
           | some t => buildKids mk rest (objInsert c.id t nodes)) from rfl] at hb
    cases hmk : mk c.id with
    | none =>
      simp only [hmk] at hb
      cases hb
    | some t =>
      simp only [hmk] at hb
      rw [objInsert_fresh c.id t nodes (hfresh c (by simp))] at hb
      have hnodup2 : (rest.map HRecord.id).Nodup := by
        simp only [List.map_cons, List.nodup_cons] at hnodup
        exact hnodup.2
      have hfresh2 : ∀ c2 ∈ rest, c2.id ∉ objKeys (nodes ++ [(c.id, t)]) := by
        intro c2 hc2
        have h1 : c2.id ∉ objKeys nodes := hfresh c2 (by simp [hc2])
        have h2 : c2.id ≠ c.id := by
          intro heq
          simp only [List.map_cons, List.nodup_cons] at hnodup
          exact hnodup.1 (heq ▸ List.mem_map_of_mem HRecord.id hc2)
        simp only [objKeys, List.map_append, List.mem_append, List.map_cons] at h1 ⊢
        rintro (hmem | hmem)
        · exact h1 hmem
        · simp at hmem
          exact h2 hmem
      rw [ih (nodes ++ [(c.id, t)]) out hfresh2 hnodup2 hb, countKids_append]
      have hct : countTree t = (dF c.id).length := hc c.id t hmk
      rw [show countKids [(c.id, t)] = 1 + countTree t + 0 from by simp [countKids]]
      rw [show descKids dF (c :: rest) = c :: (dF c.id ++ descKids dF rest) from rfl]
      simp only [List.length_cons, List.length_append, hct]
      omega

/-- With unique ids, the node count of a successfully built tree equals the
length of the placement list at the same fuel and parent value. -/
theorem makeTree_count_descF (H : List HRecord) (hu : UniqueIds H) :
    ∀ f p t, makeTree H f p = some t → countTree t = (descF H f p).length := by
  intro f
  induction f with
  | zero => intro p t h; simp [makeTree] at h
  | succ f ih =>
    intro p t h
    rw [show makeTree H (f + 1) p
        = (buildKids (fun i => makeTree H f (some i)) (H.filter (hasParent p)) []).map
            Tree.node from rfl] at h
    cases hb : buildKids (fun i => makeTree H f (some i)) (H.filter (hasParent p)) [] with
    | none => rw [hb] at h; cases h
    | some out =>
      rw [hb] at h
      have ht : t = Tree.node out := by
        simpa using h.symm
      subst ht
      have hnodupf : ((H.filter (hasParent p)).map HRecord.id).Nodup :=
        List.Nodup.sublist (List.Sublist.map HRecord.id (List.filter_sublist H)) hu
      have hcount := buildKids_count (fun i => makeTree H f (some i))
        (fun i => descF H f (some i)) (fun i u hmu => ih (some i) u hmu)
        (H.filter (hasParent p)) [] out (fun c _ => by simp [objKeys]) hnodupf hb
      rw [show countTree (Tree.node out) = countKids out from by simp [countTree]]
      rw [hcount]
      simp [countKids, descF]

/-- C4: on every hierarchy with unique ids, valid parent references and an
acyclic parent relation (witnessed by a rank function), the builder at the
root sentinel terminates and the total number of nodes across all levels of
the returned tree equals the number of records. -/
theorem makeTree_node_count (H : List HRecord) (m : Option String → Nat)
    (hm : AcyclicM H m) (hu : UniqueIds H) (hv : ValidParents H) :
    ∃ fuel t, makeTree H fuel none = some t ∧ countTree t = H.length := by
  obtain ⟨t, ht⟩ := makeTree_total H m hm (m none + 1) none (Nat.lt_succ_self _)
  have htF : makeTree H (m none + H.length + 2) none = some t :=
    makeTree_mono H (m none + 1) none t ht (m none + H.length + 2) (by omega)
  refine ⟨m none + H.length + 2, t, htF, ?_⟩
  have h1 : countTree t = (descF H (m none + H.length + 2) none).length :=
    makeTree_count_descF H hu (m none + H.length + 2) none t htF
  have hperm : (descF H (m none + H.length + 2) none).Perm H := by
    rw [List.perm_iff_count]
    intro x
    by_cases hx : x ∈ H
    · have hreach : reachesB H (m none + H.length + 2) x none = true :=
        reachesB_mono H (H.length + 1) (m none + H.length + 2) x none (by omega)
          (chain_reaches_root H m hm hv x hx)
      rw [descF_count H m hm hu (m none + H.length + 2) x none hx, hreach, if_pos rfl,
        List.count_eq_one_of_mem (List.Nodup.of_map _ hu) hx]
    · rw [List.count_eq_zero.mpr hx, List.count_eq_zero.mpr
        (fun hmem => hx (descF_sub H (m none + H.length + 2) none x hmem))]
  rw [h1, hperm.length_eq]

/-- C4 witness: the four-record example satisfies all three hypotheses, so
the builder terminates on it with a four-node tree. -/
theorem makeTree_node_count_witness :
    AcyclicM smallHierarchy smallMeasure
    ∧ UniqueIds smallHierarchy
    ∧ ValidParents smallHierarchy
    ∧ ∃ fuel t, makeTree smallHierarchy fuel none = some t
        ∧ countTree t = smallHierarchy.length := by
  exact ⟨by decide, by decide, by decide,
    makeTree_node_count smallHierarchy smallMeasure (by decide) (by decide) (by decide)⟩

/-! ## A heap-explicit embedding of the tree builder (C8)

The claim that a build leaves its input untouched and returns a fresh
structure with no reference back to the input records is about object
identity and mutation, so this second embedding of the same source makes
the JavaScript heap explicit: a store is a list of objects (address =
index), an object is an insertion-ordered list of fields, and a value is
`null`, `undefined`, a string, or a reference to an address.

`makeTreeH` re-embeds
```js
const makeTree = (animals) => (parent) => {
    let nodes = {};
    animals.filter(hasParent(parent)).forEach(assignTo(nodes)(animals));
    return nodes;
};
```
with the records living in the store: the input collection is the list of
their addresses, `let nodes = {}` allocates a fresh object at the end of the
store, the filter reads each record's `parent` field from the current store,
and each loop iteration reads `item.id`, recursively builds the subtree
(allocating further objects), then executes the property write
`nodes[item.id] = subtree` as `assignTo` does.  Fuel plays the same role as
in the pure embedding. -/

/-- A JavaScript value: `null`, `undefined`, a string, or an object
reference (a store address). -/
inductive JVal where
  | vnull
  | vundef
  | vstr : String → JVal
  | vref : Nat → JVal
  deriving DecidableEq, Repr

/-- An insertion-ordered JavaScript object. -/
abbrev JObj := List (String × JVal)

/-- The heap: address `a` is the object at index `a`; allocation appends. -/
abbrev Store := List JObj

/-- Property read: first field with the key, `undefined` when absent. -/
def getField (o : JObj) (k : String) : JVal :=
  match o.find? (fun kv => kv.1 == k) with
  | some kv => kv.2
  | none => JVal.vundef

/-- Property write on an object: overwrite in place or append. -/
def setField (k : String) (v : JVal) : JObj → JObj
  | [] => [(k, v)]
  | kv :: rest => if kv.1 = k then (k, v) :: rest else kv :: setField k v rest

/-- Dereference an address (reads are only performed at valid addresses
under this development's hypotheses; a dangling address reads as `{}`). -/
def storeGet : Store → Nat → JObj
  | [], _ => []
  | o :: _, 0 => o
  | _ :: s, n + 1 => storeGet s n

/-- Overwrite the object at an address (no-op when dangling). -/
def storeSet : Store → Nat → JObj → Store
  | [], _, _ => []
  | _ :: s, 0, o => o :: s
  | o0 :: s, n + 1, o => o0 :: storeSet s n o

/-- Read a field of the object at an address. -/
def jField (s : Store) (a : Nat) (k : String) : JVal :=
  getField (storeGet s a) k

/-- The property key a value is coerced to by `tree[item.id] = …`; id
fields are strings in every run considered, so only the first branch is
exercised. -/
def keyOf : JVal → String
  | .vstr s => s
  | .vnull => "null"
  | .vundef => "undefined"
  | .vref _ => "[object Object]"

/-- One iteration of `forEach(assignTo(nodes)(animals))`: read `item.id`,
recursively build the subtree (`mk`, mutating the store), then write
`nodes[item.id] = subtree` into the object at address `a`. -/
def assignToH (mk : Store → JVal → Option (Store × Nat)) (a : Nat)
    (st : Store) (r : Nat) : Option Store :=
  let idv := jField st r "id"
  match mk st idv with
  | none => none
  | some (st3, t) =>
    some (storeSet st3 a (setField (keyOf idv) (JVal.vref t) (storeGet st3 a)))

/-- The `forEach` loop over the filtered item addresses, threading the
store. -/
def forEachH (step : Store → Nat → Option Store) : List Nat → Store → Option Store
  | [], st => some st
  | r :: rest, st =>
    match step st r with
    | none => none
    | some st2 => forEachH step rest st2

/-- Heap-explicit `makeTree(animals)(parent)`: allocate `nodes` at the end
of the store, filter the record addresses by their `parent` field, run the
assignment loop, and return the final store with the address of `nodes`. -/
def makeTreeH (addrs : List Nat) : Nat → Store → JVal → Option (Store × Nat)
  | 0, _, _ => none
  | fuel + 1, st, parent =>
    (forEachH (assignToH (makeTreeH addrs fuel) st.length)
        (addrs.filter fun r => jField (st ++ [[]]) r "parent" == parent)
        (st ++ [[]])).map
      fun st4 => (st4, st.length)

/-- Every object in the region `[lo, s.length)` holds only reference fields
pointing into that same region: the freshly built structure is closed and
refers to nothing older than `lo`. -/
def NewRefsOK (lo : Nat) (s : Store) : Prop :=
  ∀ j, lo ≤ j → j < s.length →
    ∀ kv ∈ storeGet s j, ∃ b, kv.2 = JVal.vref b ∧ lo ≤ b ∧ b < s.length

theorem storeGet_append_left (s s2 : Store) :
    ∀ a, a < s.length → storeGet (s ++ s2) a = storeGet s a := by
  induction s with
  | nil => intro a h; simp at h
  | cons o rest ih =>
    intro a h
    cases a with
    | zero => rfl
    | succ n => exact ih n (by simpa using h)

theorem storeGet_append_self (s : Store) (o : JObj) :
    storeGet (s ++ [o]) s.length = o := by
  induction s with
  | nil => rfl
  | cons o0 rest ih =>
    simp only [List.cons_append, List.length_cons, storeGet]
    exact ih

theorem storeSet_length (s : Store) : ∀ a o, (storeSet s a o).length = s.length := by
  induction s with
  | nil => intro a o; rfl
  | cons o0 rest ih =>
    intro a o
    cases a with
    | zero => rfl
    | succ n => simp only [storeSet, List.length_cons, ih]

theorem storeGet_storeSet_self (s : Store) :
    ∀ a o, a < s.length → storeGet (storeSet s a o) a = o := by
  induction s with
  | nil => intro a o h; simp at h
  | cons o0 rest ih =>
    intro a o h
    cases a with
    | zero => rfl
    | succ n => exact ih n o (by simpa using h)

theorem storeGet_storeSet_ne (s : Store) :
    ∀ a b o, a ≠ b → storeGet (storeSet s a o) b = storeGet s b := by
  induction s with
  | nil => intro a b o _; rfl
  | cons o0 rest ih =>
    intro a b o h
    cases a with
    | zero =>
      cases b with
      | zero => exact absurd rfl h
      | succ m => rfl
    | succ n =>
      cases b with
      | zero => rfl
      | succ m =>
        simp only [storeSet, storeGet]
        exact ih n m o (fun hh => h (by rw [hh]))

theorem mem_setField (k : String) (v : JVal) :
    ∀ (o : JObj) (kv : String × JVal), kv ∈ setField k v o → kv = (k, v) ∨ kv ∈ o := by
  intro o
  induction o with
  | nil =>
    intro kv h
    simp only [setField, List.mem_singleton] at h
    exact Or.inl h
  | cons kv0 rest ih =>
    intro kv h
    rw [show setField k v (kv0 :: rest)
        = if kv0.1 = k then (k, v) :: rest else kv0 :: setField k v rest from rfl] at h
    by_cases h0 : kv0.1 = k
    · rw [if_pos h0] at h
      rcases List.mem_cons.mp h with rfl | hm
      · exact Or.inl rfl
      · exact Or.inr (by simp [hm])
    · rw [if_neg h0] at h
      rcases List.mem_cons.mp h with rfl | hm
      · exact Or.inr (by simp)
      · rcases ih kv hm with h1 | h1
        · exact Or.inl h1
        · exact Or.inr (by simp [h1])

/-- Frame property of the assignment loop: assuming the recursive build
only appends fresh objects (hypothesis `hMT`, discharged by induction on
fuel), the loop preserves every object below `lo`, never shrinks the store,
and keeps the region from `lo` closed under references, writing only into
the `nodes` object at `a` and into fresh objects. -/
theorem forEachH_frame (mk : Store → JVal → Option (Store × Nat)) (lo a : Nat)
    (hMT : ∀ st parent st2 t, mk st parent = some (st2, t) →
      st.length ≤ st2.length
      ∧ (∀ i, i < st.length → storeGet st2 i = storeGet st i)
      ∧ st.length ≤ t ∧ t < st2.length
      ∧ NewRefsOK st.length st2) :
    ∀ (items : List Nat) (st st2 : Store),
      lo ≤ a → a < st.length → NewRefsOK lo st →
      forEachH (assignToH mk a) items st = some st2 →
      st.length ≤ st2.length
      ∧ (∀ i, i < lo → storeGet st2 i = storeGet st i)
      ∧ NewRefsOK lo st2 := by
  intro items
  induction items with
  | nil =>
    intro st st2 _ _ hinv hfe
    have hst : st = st2 := by simpa [forEachH] using hfe
    subst hst
    exact ⟨Nat.le_refl _, fun i _ => rfl, hinv⟩
  | cons r rest ih =>
    intro st st2 hla ha hinv hfe
    cases hmk : mk st (jField st r "id") with
    | none =>
      simp only [forEachH, assignToH, hmk] at hfe
      exact Option.noConfusion hfe
    | some pair =>
      obtain ⟨st3, t⟩ := pair
      simp only [forEachH, assignToH, hmk] at hfe
      obtain ⟨h1len, h1frame, h1t1, h1t2, h1new⟩ := hMT st _ st3 t hmk
      generalize hob : setField (keyOf (jField st r "id")) (JVal.vref t)
        (storeGet st3 a) = ob at hfe
      generalize hst4 : storeSet st3 a ob = st4 at hfe
      have hlen4 : st4.length = st3.length := by
        rw [← hst4]
        exact storeSet_length st3 a ob
      have ha3 : a < st3.length := Nat.lt_of_lt_of_le ha h1len
      have ha4 : a < st4.length := by omega
      have hframe4 : ∀ i, i < lo → storeGet st4 i = storeGet st i := by
        intro i hi
        have hia : a ≠ i := by omega
        rw [← hst4, storeGet_storeSet_ne st3 a i ob hia]
        exact h1frame i (by omega)
      have hinv4 : NewRefsOK lo st4 := by
        intro j hj1 hj2
        by_cases hja : j = a
        · have hga : storeGet st4 j = ob := by
            rw [← hst4, hja, storeGet_storeSet_self st3 a ob ha3]
          intro kv hkv
          rw [hga, ← hob] at hkv
          rcases mem_setField _ _ _ kv hkv with heq | hmem
          · exact ⟨t, by rw [heq], by omega, by omega⟩
          · rw [h1frame a ha] at hmem
            obtain ⟨b, hb, hb1, hb2⟩ := hinv a hla ha kv hmem
            exact ⟨b, hb, hb1, by omega⟩
        · have hga : storeGet st4 j = storeGet st3 j := by
            rw [← hst4, storeGet_storeSet_ne st3 a j ob (fun hh => hja hh.symm)]
          intro kv hkv
          rw [hga] at hkv
          by_cases hjs : j < st.length
          · rw [h1frame j hjs] at hkv
            obtain ⟨b, hb, hb1, hb2⟩ := hinv j hj1 hjs kv hkv
            exact ⟨b, hb, hb1, by omega⟩
          · obtain ⟨b, hb, hb1, hb2⟩ := h1new j (by omega) (by omega) kv hkv
            exact ⟨b, hb, by omega, by omega⟩
      obtain ⟨h2len, h2frame, h2inv⟩ := ih st4 st2 hla ha4 hinv4 hfe
      refine ⟨by omega, ?_, h2inv⟩
      intro i hi
      rw [h2frame i hi, hframe4 i hi]

/-- The heap-explicit build only appends: every pre-existing object is
untouched, the returned address is fresh, and the fresh region references
only itself. -/
theorem makeTreeH_frame (addrs : List Nat) :
    ∀ fuel st parent st2 a,
      makeTreeH addrs fuel st parent = some (st2, a) →
      st.length ≤ st2.length
      ∧ (∀ i, i < st.length → storeGet st2 i = storeGet st i)
      ∧ st.length ≤ a ∧ a < st2.length
      ∧ NewRefsOK st.length st2 := by
  intro fuel
  induction fuel with
  | zero => intro st parent st2 a h; simp [makeTreeH] at h
  | succ fuel ih =>
    intro st parent st2 a h
    simp only [makeTreeH] at h
    cases hfe : forEachH (assignToH (makeTreeH addrs fuel) st.length)
        (addrs.filter fun r => jField (st ++ [[]]) r "parent" == parent) (st ++ [[]]) with
    | none => rw [hfe] at h; simp at h
    | some st4 =>
      rw [hfe] at h
      have hpair : st4 = st2 ∧ st.length = a := by simpa using h
      obtain ⟨rfl, rfl⟩ := hpair
      have hone : (st ++ [[]]).length = st.length + 1 := by simp
      have hinv1 : NewRefsOK st.length (st ++ [[]]) := by
        intro j hj1 hj2
        have hj : j = st.length := by omega
        subst hj
        rw [storeGet_append_self]
        intro kv hkv
        simp at hkv
      obtain ⟨hL, hF, hN⟩ := forEachH_frame (makeTreeH addrs fuel) st.length st.length ih
        (addrs.filter fun r => jField (st ++ [[]]) r "parent" == parent)
        (st ++ [[]]) _ (Nat.le_refl _) (by omega) hinv1 hfe
      refine ⟨by omega, ?_, Nat.le_refl _, by omega, hN⟩
      intro i hi
      rw [hF i hi, storeGet_append_left st [[]] i hi]

/-- C8: the build has no side effect on its input and the returned tree is
fresh.  When the input record objects live at the addresses `addrs` of the
store, a successful build leaves every pre-existing object — in particular
the input collection and every record in it — byte-for-byte unchanged,
returns the address of a freshly allocated object, and every object of the
freshly allocated region references only that region: no field of the
returned structure is a reference to an input record. -/
theorem makeTreeH_no_side_effects (addrs : List Nat) (st : Store) (fuel : Nat)
    (parent : JVal) (st2 : Store) (a : Nat)
    (haddrs : ∀ r ∈ addrs, r < st.length)
    (hrun : makeTreeH addrs fuel st parent = some (st2, a)) :
    (∀ i, i < st.length → storeGet st2 i = storeGet st i)
    ∧ (∀ r ∈ addrs, storeGet st2 r = storeGet st r)
    ∧ st.length ≤ a ∧ a < st2.length
    ∧ NewRefsOK st.length st2
    ∧ (∀ j, st.length ≤ j → j < st2.length →
        ∀ kv ∈ storeGet st2 j, ∀ r ∈ addrs, kv.2 ≠ JVal.vref r) := by
  obtain ⟨h1, h2, h3, h4, h5⟩ := makeTreeH_frame addrs fuel st parent st2 a hrun
  refine ⟨h2, fun r hr => h2 r (haddrs r hr), h3, h4, h5, ?_⟩
  intro j hj1 hj2 kv hkv r hr heq
  obtain ⟨b, hb, hb1, hb2⟩ := h5 j hj1 hj2 kv hkv
  rw [hb] at heq
  have hbr : b = r := by
    cases heq
    rfl
  have := haddrs r hr
  omega

/-- The four-record example laid out in a heap: addresses 0–3 hold the
records of `smallHierarchy` as JavaScript objects. -/
def heap0 : Store :=
  [[("id", JVal.vstr "a"), ("parent", JVal.vnull)],
   [("id", JVal.vstr "b"), ("parent", JVal.vstr "a")],
   [("id", JVal.vstr "c"), ("parent", JVal.vstr "a")],
   [("id", JVal.vstr "d"), ("parent", JVal.vstr "b")]]

/-- The heap after building the tree from `heap0`: the four records are
unchanged and addresses 4–8 hold the freshly allocated tree objects —
address 4 is `{a: ref 5}`, 5 is `{b: ref 6, c: ref 8}`, 6 is `{d: ref 7}`,
and 7, 8 are the empty leaf objects. -/
def heapFinal : Store :=
  heap0 ++
    [[("a", JVal.vref 5)],
     [("b", JVal.vref 6), ("c", JVal.vref 8)],
     [("d", JVal.vref 7)],
     [],
     []]

/-- C8 witness: running the heap-explicit builder on the four concrete
records returns the fresh object at address 4 and provably leaves the four
record objects untouched. -/
theorem makeTreeH_no_side_effects_witness :
    (∀ r ∈ ([0, 1, 2, 3] : List Nat), r < heap0.length)
    ∧ makeTreeH [0, 1, 2, 3] 5 heap0 JVal.vnull = some (heapFinal, 4)
    ∧ (∀ i, i < heap0.length → storeGet heapFinal i = storeGet heap0 i)
    ∧ (∀ r ∈ ([0, 1, 2, 3] : List Nat), storeGet heapFinal r = storeGet heap0 r)
    ∧ heap0.length ≤ 4 ∧ 4 < heapFinal.length
    ∧ NewRefsOK heap0.length heapFinal
    ∧ (∀ j, heap0.length ≤ j → j < heapFinal.length →
        ∀ kv ∈ storeGet heapFinal j, ∀ r ∈ ([0, 1, 2, 3] : List Nat),
          kv.2 ≠ JVal.vref r) := by
  have h := makeTreeH_no_side_effects [0, 1, 2, 3] heap0 5 JVal.vnull heapFinal 4
    (by decide) (by rfl)
  exact ⟨by decide, by rfl, h.1, h.2.1, h.2.2.1, h.2.2.2.1, h.2.2.2.2.1, h.2.2.2.2.2⟩

end FP
